import Mathlib

/-!
Shallow embedding of the DeepPDCFR_RUST range/bet-size engine
(src/api/src/solver/cards.rs, range.rs, bet_sizing.rs).

Strings are modelled as lists of characters; Rust `u8`/`u16`/`u32`
integers as `Nat` (with explicit saturation where a float-to-integer
cast saturates); Rust `f64` values as exact rationals `ℚ`; fallible
functions return `Except String`.  Rust's `HashMap<u16, f64>` is
modelled canonically as an association list kept sorted by key, with
insert-overwrite semantics.
-/

set_option maxRecDepth 10000

deriving instance DecidableEq for Except

/-- Card rank (2 through Ace), discriminants 0..12 as in the source. -/
inductive Rank where
  | Two | Three | Four | Five | Six | Seven | Eight | Nine
  | Ten | Jack | Queen | King | Ace
deriving DecidableEq

/-- The `u8` discriminant of a rank (`Rank::Two = 0` .. `Rank::Ace = 12`). -/
def Rank.toNat : Rank → ℕ
  | .Two => 0 | .Three => 1 | .Four => 2 | .Five => 3 | .Six => 4
  | .Seven => 5 | .Eight => 6 | .Nine => 7 | .Ten => 8 | .Jack => 9
  | .Queen => 10 | .King => 11 | .Ace => 12

/-- Inverse of the discriminant; models the source's unchecked
`transmute::<u8, Rank>` whose callers stay in range 0..=12. -/
def Rank.fromIdx : ℕ → Rank
  | 0 => .Two | 1 => .Three | 2 => .Four | 3 => .Five | 4 => .Six
  | 5 => .Seven | 6 => .Eight | 7 => .Nine | 8 => .Ten | 9 => .Jack
  | 10 => .Queen | 11 => .King | _ => .Ace

/-- Model of `Rank::to_char`. -/
def Rank.to_char : Rank → Char
  | .Two => '2' | .Three => '3' | .Four => '4' | .Five => '5' | .Six => '6'
  | .Seven => '7' | .Eight => '8' | .Nine => '9' | .Ten => 'T' | .Jack => 'J'
  | .Queen => 'Q' | .King => 'K' | .Ace => 'A'

/-- Model of `Rank::from_char`. -/
def Rank.from_char (c : Char) : Option Rank :=
  if c = '2' then some .Two
  else if c = '3' then some .Three
  else if c = '4' then some .Four
  else if c = '5' then some .Five
  else if c = '6' then some .Six
  else if c = '7' then some .Seven
  else if c = '8' then some .Eight
  else if c = '9' then some .Nine
  else if c = 'T' ∨ c = 't' then some .Ten
  else if c = 'J' ∨ c = 'j' then some .Jack
  else if c = 'Q' ∨ c = 'q' then some .Queen
  else if c = 'K' ∨ c = 'k' then some .King
  else if c = 'A' ∨ c = 'a' then some .Ace
  else none

/-- Model of `Rank::all`. -/
def Rank.all : List Rank :=
  [.Two, .Three, .Four, .Five, .Six, .Seven, .Eight, .Nine, .Ten,
   .Jack, .Queen, .King, .Ace]

/-- Card suit, discriminants 0..3 as in the source. -/
inductive Suit where
  | Clubs | Diamonds | Hearts | Spades
deriving DecidableEq

/-- The `u8` discriminant of a suit. -/
def Suit.toNat : Suit → ℕ
  | .Clubs => 0 | .Diamonds => 1 | .Hearts => 2 | .Spades => 3

/-- Model of `Suit::to_char`. -/
def Suit.to_char : Suit → Char
  | .Clubs => 'c' | .Diamonds => 'd' | .Hearts => 'h' | .Spades => 's'

/-- Model of `Suit::from_char`. -/
def Suit.from_char (c : Char) : Option Suit :=
  if c = 'c' ∨ c = 'C' then some .Clubs
  else if c = 'd' ∨ c = 'D' then some .Diamonds
  else if c = 'h' ∨ c = 'H' then some .Hearts
  else if c = 's' ∨ c = 'S' then some .Spades
  else none

/-- Model of `Suit::all`. -/
def Suit.all : List Suit :=
  [.Clubs, .Diamonds, .Hearts, .Spades]

/-- A playing card.  The source packs `(rank, suit)` into a `u8` as
`rank * 4 + suit`, a bijection onto 0..51; it is modelled by the pair
itself with `Card.value` recovering the packed encoding. -/
structure Card where
  rank : Rank
  suit : Suit
deriving DecidableEq

/-- Model of `Card::new`. -/
def Card.new (r : Rank) (s : Suit) : Card := ⟨r, s⟩

/-- Model of `Card::value` (the packed `u8` encoding, 0..51). -/
def Card.value (c : Card) : ℕ := c.rank.toNat * 4 + c.suit.toNat

/-- Model of `Card::to_string` via the `Display` impl: rank char then suit char. -/
def Card.to_string (c : Card) : List Char := [c.rank.to_char, c.suit.to_char]

/-- Model of `Card::from_str`: exactly two characters, rank then suit. -/
def card_from_str (s : List Char) : Except String Card :=
  match s with
  | [c0, c1] =>
    match Rank.from_char c0 with
    | none => .error "Invalid rank"
    | some r =>
      match Suit.from_char c1 with
      | none => .error "Invalid suit"
      | some su => .ok (Card.new r su)
  | _ => .error "Invalid card string (expected 2 characters)"

/-- A two-card combination with its `u16` id. -/
structure Combo where
  card1 : Card
  card2 : Card
  id : ℕ
deriving DecidableEq

/-- Model of `Combo::new`. -/
def Combo.new (card1 card2 : Card) (id : ℕ) : Combo := ⟨card1, card2, id⟩

/-- Model of `Combo::is_blocked_by`: true iff either card appears in `cards`. -/
def Combo.is_blocked_by (c : Combo) (cards : List Card) : Bool :=
  decide (c.card1 ∈ cards) || decide (c.card2 ∈ cards)

/-- The 52-card deck in generation order: ranks Ace down to Two
(outer, reversed `Rank::all`), suits Spades down to Clubs (inner,
reversed `Suit::all`), as built at the top of `generate_all_combos`. -/
def all_cards : List Card :=
  (Rank.all.reverse).flatMap (fun r => (Suit.all.reverse).map (fun s => Card.new r s))

/-- Placeholder card used only for the (never out-of-range) list indexing. -/
def defaultCard : Card := Card.new Rank.Two Suit.Clubs

/-- The card pairs visited by the double loop of `generate_all_combos`:
outer index `i`, inner index `j` in `i+1..52`, pair
`(all_cards[i], all_cards[j])`. -/
def combo_pairs : List (Card × Card) :=
  (List.range 52).flatMap
    (fun i => (List.range' (i + 1) (51 - i)).map
      (fun j => (all_cards.getD i defaultCard, all_cards.getD j defaultCard)))

/-- Model of `generate_all_combos`: all C(52,2) = 1326 pairs with ids assigned
by an incrementing counter, hence equal to the position in the output. -/
def generate_all_combos : List Combo :=
  (combo_pairs.enum).map (fun p => Combo.new p.2.1 p.2.2 p.1)

/-- Model of `filter_blocked_combos`. -/
def filter_blocked_combos (combos : List Combo) (board : List Card) : List Combo :=
  combos.filter (fun combo => !(combo.is_blocked_by board))

/-- Generic split of a character list at every separator position
(Rust `str::split`): `splitOnP p "a,,b" = ["a", "", "b"]` and the
empty input yields one empty token. -/
def splitOnP (p : Char → Bool) : List Char → List (List Char)
  | [] => [[]]
  | c :: rest =>
    match splitOnP p rest with
    | [] => [[c]]
    | t :: ts => if p c then [] :: t :: ts else (c :: t) :: ts

/-- Rust `str::split(sep)`. -/
def splitOn (sep : Char) (l : List Char) : List (List Char) :=
  splitOnP (fun c => c = sep) l

/-- Rust `str::split_whitespace`: split on whitespace runs, dropping
empty tokens. -/
def splitWhitespace (l : List Char) : List (List Char) :=
  (splitOnP Char.isWhitespace l).filter (fun t => !t.isEmpty)

/-- Rust `str::trim`. -/
def trim (l : List Char) : List Char :=
  ((l.dropWhile Char.isWhitespace).reverse.dropWhile Char.isWhitespace).reverse

/-- The two-character chunks of a list (the concatenated-board loop
reading `chars[i..i+2]` for even `i`). -/
def chunks2 : List Char → List (List Char)
  | [] => []
  | [a] => [[a]]
  | a :: b :: rest => [a, b] :: chunks2 rest

/-- Short-circuiting elementwise parse, as Rust's
`collect::<Result<Vec<_>, _>>` over a `map`: stops at the first error. -/
def mapE (f : α → Except String β) : List α → Except String (List β)
  | [] => .ok []
  | a :: rest =>
    match f a with
    | .error e => .error e
    | .ok b =>
      match mapE f rest with
      | .error e => .error e
      | .ok bs => .ok (b :: bs)

/-- Model of `parse_board`: trim, then whitespace-separated tokens when a space
character is present, otherwise two-character chunks of an even-length
string. -/
def parse_board (s : List Char) : Except String (List Card) :=
  let s := trim s
  if ' ' ∈ s then
    mapE card_from_str (splitWhitespace s)
  else if s.length % 2 ≠ 0 then
    .error "Invalid board string length"
  else
    mapE card_from_str (chunks2 s)

theorem combo_pairs_length : combo_pairs.length = 1326 := by decide

theorem combos_map_id : generate_all_combos.map Combo.id = List.range 1326 := by
  unfold generate_all_combos
  rw [List.map_map]
  have h : (Combo.id ∘ fun p : ℕ × Card × Card => Combo.new p.2.1 p.2.2 p.1) = Prod.fst := rfl
  rw [h, List.enum_map_fst, combo_pairs_length]

theorem combos_length : generate_all_combos.length = 1326 := by decide

theorem combo_id_lt {c : Combo} (hc : c ∈ generate_all_combos) : c.id < 1326 := by
  have hm : c.id ∈ generate_all_combos.map Combo.id := List.mem_map_of_mem _ hc
  rw [combos_map_id] at hm
  exact List.mem_range.mp hm

/-- Decimal literal parser: the plain (non-exponent, non-special)
subset of Rust `f64` string parsing, with exact rational values in
place of binary floating point. -/
def parseDecimal (s : List Char) : Option ℚ :=
  let signed : Bool × List Char :=
    match s with
    | '-' :: r => (true, r)
    | '+' :: r => (false, r)
    | r => (false, r)
  let intPart := signed.2.takeWhile Char.isDigit
  let rest := signed.2.dropWhile Char.isDigit
  let digitsVal : List Char → ℕ :=
    fun ds => ds.foldl (fun acc d => acc * 10 + (d.toNat - 48)) 0
  let mk : ℤ → ℕ → Option ℚ :=
    fun n d => some (mkRat (if signed.1 then -n else n) d)
  match rest with
  | [] => if intPart.isEmpty then none else mk (digitsVal intPart) 1
  | '.' :: frac =>
    if frac.all Char.isDigit && !(intPart.isEmpty && frac.isEmpty) then
      mk (digitsVal intPart * 10 ^ frac.length + digitsVal frac) (10 ^ frac.length)
    else none
  | _ => none

/-- Position split at the first occurrence of `sep` (Rust
`str::find` + slicing): `some (before, after)` or `none`. -/
def splitFirst (sep : Char) : List Char → Option (List Char × List Char)
  | [] => none
  | c :: rest =>
    if c = sep then some ([], rest)
    else (splitFirst sep rest).map (fun p => (c :: p.1, p.2))

/-- A hand range, `combos` mapping combo id to frequency.  The Rust
`HashMap<u16, f64>` is modelled canonically as an association list
sorted strictly by key. -/
structure Range where
  combos : List (ℕ × ℚ)
deriving DecidableEq

/-- Model of `Range::new`. -/
def Range.new : Range := ⟨[]⟩

/-- Sorted-association-list insert with overwrite on an existing key
(the model of `HashMap::insert`). -/
def insertCombo : List (ℕ × ℚ) → ℕ → ℚ → List (ℕ × ℚ)
  | [], id, f => [(id, f)]
  | (k, v) :: rest, id, f =>
    if id < k then (id, f) :: (k, v) :: rest
    else if id = k then (id, f) :: rest
    else (k, v) :: insertCombo rest id f

/-- Model of `self.combos.insert(combo_id, frequency)`. -/
def Range.insert (r : Range) (id : ℕ) (f : ℚ) : Range :=
  ⟨insertCombo r.combos id f⟩

/-- Model of `Range::len`. -/
def Range.len (r : Range) : ℕ := r.combos.length

/-- Model of `Range::is_empty`. -/
def Range.is_empty (r : Range) : Bool := r.combos.isEmpty

/-- Model of `Range::get_frequency`: stored frequency, or 0.0 when absent. -/
def Range.get_frequency (r : Range) (id : ℕ) : ℚ :=
  match r.combos.lookup id with
  | some f => f
  | none => 0

/-- The per-combo match test inside `parse_single_hand`'s loop:
rank pattern (higher rank first in the combo) plus the optional
suited/offsuit restriction. -/
def comboMatches (rank1 rank2 : Rank) (sf : Option Bool) (combo : Combo) : Bool :=
  let c1 := combo.card1.rank
  let c2 := combo.card2.rank
  let ranksMatch : Bool :=
    if rank2.toNat ≤ rank1.toNat then decide (c1 = rank1 ∧ c2 = rank2)
    else decide (c1 = rank2 ∧ c2 = rank1)
  if !ranksMatch then false
  else
    let isSuited : Bool := decide (combo.card1.suit = combo.card2.suit)
    match sf with
    | some true => isSuited
    | some false => !isSuited
    | none => true

/-- The suited/offsuit modifier of a single-hand token's trailing
characters: absent for a 2-character token, `s`/`o` (any case) for a
3-character one, an error otherwise. -/
def modifierOf : List Char → Except String (Option Bool)
  | [] => .ok none
  | [m] =>
    if m = 's' ∨ m = 'S' then .ok (some true)
    else if m = 'o' ∨ m = 'O' then .ok (some false)
    else .error "Invalid modifier (expected s or o)"
  | _ => .error "Invalid hand format"

/-- Model of `parse_single_hand`: two rank characters, optional modifier, then
a scan of all combos collecting matching ids; zero matches is an
error. -/
def parse_single_hand (s : List Char) (ac : List Combo) : Except String (List ℕ) :=
  match s with
  | c0 :: c1 :: rest =>
    match Rank.from_char c0 with
    | none => .error "Invalid rank"
    | some rank1 =>
      match Rank.from_char c1 with
      | none => .error "Invalid rank"
      | some rank2 =>
        match modifierOf rest with
        | .error e => .error e
        | .ok sf =>
          let ids := (ac.filter (fun combo => comboMatches rank1 rank2 sf combo)).map Combo.id
          if ids.isEmpty then .error "No combos found for hand" else .ok ids
  | _ => .error "Invalid hand"

/-- The modifier rule of the plus/range grammars: `s`/`o` when the
token has exactly 3 characters (error on another third character), and
no restriction for any other length. -/
def optModifierOf : List Char → Except String (Option Bool)
  | [m] =>
    if m = 's' ∨ m = 'S' then .ok (some true)
    else if m = 'o' ∨ m = 'O' then .ok (some false)
    else .error "Invalid modifier"
  | _ => .ok none

/-- The characters appended for a suited/offsuit restriction when the
expansion loops rebuild hand strings. -/
def modChars : Option Bool → List Char
  | some true => ['s']
  | some false => ['o']
  | none => []

/-- The pair hand strings `"rr"` for rank indices `lo..=hi`. -/
def pairHands (lo hi : ℕ) : List (List Char) :=
  (List.range' lo (hi + 1 - lo)).map
    (fun n => [(Rank.fromIdx n).to_char, (Rank.fromIdx n).to_char])

/-- The non-pair hand strings with fixed first rank and second-rank
indices sweeping `lo..hiExcl` (exclusive), as in plus notation. -/
def sweepHandsExcl (r1 : Rank) (sf : Option Bool) (lo hiExcl : ℕ) : List (List Char) :=
  (List.range' lo (hiExcl - lo)).map
    (fun n => [r1.to_char, (Rank.fromIdx n).to_char] ++ modChars sf)

/-- The non-pair hand strings with fixed first rank and second-rank
indices sweeping `lo..=hi` (inclusive), as in range notation. -/
def sweepHandsIncl (r1 : Rank) (sf : Option Bool) (lo hi : ℕ) : List (List Char) :=
  (List.range' lo (hi + 1 - lo)).map
    (fun n => [r1.to_char, (Rank.fromIdx n).to_char] ++ modChars sf)

/-- The `combo_ids.extend(parse_single_hand(..)?)` loop shared by the
plus/range expansions: parse each rebuilt hand string, stopping at the
first error, and concatenate the id lists in order. -/
def collectHands (hands : List (List Char)) (ac : List Combo) : Except String (List ℕ) :=
  match mapE (fun h => parse_single_hand h ac) hands with
  | .error e => .error e
  | .ok idss => .ok idss.flatten

/-- Model of `parse_plus_notation` (argument already stripped of the trailing
`+`): pairs sweep rank..=Ace; non-pairs fix the first rank and sweep
the second rank up to, excluding, the first — an empty sweep (second
rank above the first) yields `Ok` with no ids. -/
def parse_plus_notation (s : List Char) : Except String (List ℕ) :=
  match s with
  | c0 :: c1 :: rest =>
    match Rank.from_char c0 with
    | none => .error "Invalid rank"
    | some rank1 =>
      match Rank.from_char c1 with
      | none => .error "Invalid rank"
      | some rank2 =>
        match optModifierOf rest with
        | .error e => .error e
        | .ok sf =>
          if rank1 = rank2 then
            collectHands (pairHands rank1.toNat 12) generate_all_combos
          else
            collectHands (sweepHandsExcl rank1 sf rank2.toNat rank1.toNat) generate_all_combos
  | _ => .error "Invalid plus notation"

/-- Model of `parse_range_notation`: exactly two `-`-separated parts, both at
least two characters; pair endpoints sweep between the two pair ranks,
otherwise both parts must share the first rank and the second rank
sweeps between the endpoints, with the start token's modifier. -/
def parse_range_notation (s : List Char) : Except String (List ℕ) :=
  match splitOn '-' s with
  | [p0, p1] =>
    match p0, p1 with
    | a0 :: a1 :: arest, b0 :: b1 :: _ =>
      match Rank.from_char a0 with
      | none => .error "Invalid rank"
      | some sr1 =>
        match Rank.from_char a1 with
        | none => .error "Invalid rank"
        | some sr2 =>
          match Rank.from_char b0 with
          | none => .error "Invalid rank"
          | some er1 =>
            match Rank.from_char b1 with
            | none => .error "Invalid rank"
            | some er2 =>
              match optModifierOf arest with
              | .error e => .error e
              | .ok sf =>
                if sr1 = sr2 ∧ er1 = er2 then
                  collectHands
                    (pairHands (min sr1.toNat er1.toNat) (max sr1.toNat er1.toNat))
                    generate_all_combos
                else if sr1 ≠ er1 then .error "Range must have same first rank"
                else
                  collectHands
                    (sweepHandsIncl sr1 sf (min sr2.toNat er2.toNat) (max sr2.toNat er2.toNat))
                    generate_all_combos
    | _, _ => .error "Invalid range"
  | _ => .error "Invalid range format"

/-- Model of `parse_hand_pattern`: plus notation when the token ends in `+`,
range notation when it contains `-`, otherwise a single hand. -/
def parse_hand_pattern (s : List Char) : Except String (List ℕ) :=
  if s.getLast? = some '+' then parse_plus_notation (s.dropLast)
  else if '-' ∈ s then parse_range_notation s
  else parse_single_hand s generate_all_combos

/-- The frequency-suffix handling of `Range::parse`'s token loop: an
optional `:<float>` suffix that must lie within [0, 1], frequency 1
when absent. -/
def splitFreq (token : List Char) : Except String (List Char × ℚ) :=
  match splitFirst ':' token with
  | none => .ok (token, 1)
  | some (hand, fstr) =>
    match parseDecimal fstr with
    | none => .error "Invalid frequency"
    | some f =>
      if ¬(0 ≤ f ∧ f ≤ 1) then .error "Frequency must be 0.0-1.0"
      else .ok (hand, f)

/-- The token loop of `Range::parse`: trim each comma-separated token,
skip blanks, split off the frequency, resolve the hand pattern, and
insert every resolved id at that frequency (overwriting prior
entries). -/
def parseTokens (tokens : List (List Char)) (range : Range) : Except String Range :=
  match tokens with
  | [] => .ok range
  | token :: rest =>
    let token := trim token
    if token.isEmpty then parseTokens rest range
    else
      match splitFreq token with
      | .error e => .error e
      | .ok (hand, freq) =>
        match parse_hand_pattern hand with
        | .error e => .error e
        | .ok ids =>
          parseTokens rest (ids.foldl (fun r id => r.insert id freq) range)

/-- Model of `Range::parse`. -/
def Range.parse (s : List Char) : Except String Range :=
  if s.isEmpty then .ok Range.new
  else parseTokens (splitOn ',' s) Range.new

/-- The loop body of `Range::filter_blocked` over the stored entries:
`none` models the panic of the unchecked `all_combos[combo_id]`
indexing when an id is out of bounds; otherwise unblocked entries are
kept with their frequencies. -/
def filterBlockedList (board : List Card) : List (ℕ × ℚ) → Option (List (ℕ × ℚ))
  | [] => some []
  | (id, f) :: rest =>
    match generate_all_combos.get? id with
    | none => none
    | some combo =>
      match filterBlockedList board rest with
      | none => none
      | some acc =>
        some (if combo.is_blocked_by board then acc else (id, f) :: acc)

/-- Model of `Range::filter_blocked`. -/
def Range.filter_blocked (r : Range) (board : List Card) : Option Range :=
  (filterBlockedList board r.combos).map Range.mk

/-- A bet size rule: percentage of pot, or all-in.  The `f64`
percentage is modelled as an exact rational. -/
inductive BetSize where
  | Percent (pct : ℚ)
  | AllIn
deriving DecidableEq

/-- Round half away from zero (`f64::round`), on exact rationals. -/
def roundHalfAway (q : ℚ) : ℤ :=
  if 0 ≤ q then (mkRat (2 * q.num + q.den) (2 * q.den)).floor
  else -((mkRat ((q.den : ℤ) - 2 * q.num) (2 * q.den)).floor)

/-- Rust's saturating `as u32` cast applied to a rounded value. -/
def castU32 (z : ℤ) : ℕ := min z.toNat (2 ^ 32 - 1)

/-- Model of `pot × pct / 100` as an exact rational (the `f64` product of
`BetSize::calculate` and `get_raise_amounts`). -/
def potPct (pot : ℕ) (pct : ℚ) : ℚ := mkRat (pot * pct.num) (pct.den * 100)

/-- Model of `BetSize::calculate`: round(pot × pct / 100) capped at stack for a
percentage, the stack for all-in. -/
def BetSize.calculate : BetSize → ℕ → ℕ → ℕ
  | .Percent pct, pot, stack => min (castU32 (roundHalfAway (potPct pot pct))) stack
  | .AllIn, _, stack => stack

/-- Bet size configuration: OOP/IP bet and raise size lists. -/
structure BetSizeConfig where
  oop_bet : List BetSize
  oop_raise : List BetSize
  ip_bet : List BetSize
  ip_raise : List BetSize
deriving DecidableEq

/-- Model of `BetSizeConfig::get_bet_amounts`: map each selected rule through
`calculate`, then keep amounts strictly positive and at most the
stack, in rule order. -/
def BetSizeConfig.get_bet_amounts (c : BetSizeConfig) (oop : Bool) (pot stack : ℕ) : List ℕ :=
  ((if oop then c.oop_bet else c.ip_bet).map (fun sz => sz.calculate pot stack)).filter
    (fun a => decide (0 < a ∧ a ≤ stack))

/-- Model of `BetSizeConfig::get_raise_amounts`: `to_call + round((pot + to_call)
× pct / 100)` per percentage rule, the stack for all-in, keeping
amounts strictly above `to_call` and at most the stack, in rule order. -/
def BetSizeConfig.get_raise_amounts (c : BetSizeConfig) (oop : Bool) (pot to_call stack : ℕ) :
    List ℕ :=
  ((if oop then c.oop_raise else c.ip_raise).map
      (fun sz =>
        match sz with
        | .Percent pct => to_call + castU32 (roundHalfAway (potPct (pot + to_call) pct))
        | .AllIn => stack)).filter
    (fun a => decide (to_call < a ∧ a ≤ stack))

/-- Model of `parse_single_bet_size`: trim, `a`/`allin` case-insensitively for
all-in, otherwise a strictly positive number. -/
def parse_single_bet_size (s : List Char) : Except String BetSize :=
  let s := trim s
  if s.map Char.toLower = ['a'] ∨ s.map Char.toLower = ['a', 'l', 'l', 'i', 'n'] then
    .ok .AllIn
  else
    match parseDecimal s with
    | none => .error "Invalid bet size (expected number or a)"
    | some v => if v ≤ 0 then .error "Bet size must be positive" else .ok (.Percent v)

/-- The non-empty trimmed tokens of a comma-separated bet size string
(the loop of `parse_bet_size_string` skips blank tokens). -/
def betTokens (s : List Char) : List (List Char) :=
  ((splitOn ',' s).map trim).filter (fun t => !t.isEmpty)

/-- Model of `parse_bet_size_string`: parse every non-blank token, then reject
an empty result list. -/
def parse_bet_size_string (s : List Char) : Except String (List BetSize) :=
  match mapE parse_single_bet_size (betTokens s) with
  | .error e => .error e
  | .ok sizes =>
    if sizes.isEmpty then .error "Bet size string cannot be empty" else .ok sizes

/-- Model of `BetSizeConfig::default()`: bets `"33, 67, a"`, raises `"50, a"`,
for both positions (the source `unwrap`s the successful parses). -/
def BetSizeConfig.default : BetSizeConfig where
  oop_bet := (parse_bet_size_string (" 33, 67, a".toList)).toOption.getD []
  oop_raise := (parse_bet_size_string (" 50, a".toList)).toOption.getD []
  ip_bet := (parse_bet_size_string (" 33, 67, a".toList)).toOption.getD []
  ip_raise := (parse_bet_size_string (" 50, a".toList)).toOption.getD []

theorem combos_cards : generate_all_combos.map (fun c => (c.card1, c.card2)) = combo_pairs := by
  unfold generate_all_combos
  rw [List.map_map]
  have h : ((fun c : Combo => (c.card1, c.card2)) ∘
      fun p : ℕ × Card × Card => Combo.new p.2.1 p.2.2 p.1) = Prod.snd := rfl
  rw [h, List.enum_map_snd]

/-- Claim C1: `generate_all_combos` returns exactly 1326 combinations whose
ids are distinct, contiguous 0..1325, and equal to the position in the
sequence; the cards follow the fixed deck order (ranks Ace down to Two,
suits Spades down to Clubs, lexicographic loop over deck indices), with
combination 0 a pair of aces and combination 1325 a pair of twos. -/
theorem claim_C1 :
    generate_all_combos.length = 1326 ∧
    generate_all_combos.map Combo.id = List.range 1326 ∧
    generate_all_combos.map (fun c => (c.card1, c.card2)) = combo_pairs ∧
    all_cards.map Card.value = (List.range 52).map (fun i => 51 - i) ∧
    generate_all_combos.getD 0 (Combo.new defaultCard defaultCard 0) =
      Combo.new (Card.new .Ace .Spades) (Card.new .Ace .Hearts) 0 ∧
    generate_all_combos.getD 1325 (Combo.new defaultCard defaultCard 0) =
      Combo.new (Card.new .Two .Diamonds) (Card.new .Two .Clubs) 1325 :=
  ⟨combos_length, combos_map_id, combos_cards, by decide, by decide, by decide⟩

/-- Claim C2: for every valid card, parsing the `to_string` output yields
the same card back, and that output is the rank character (unchanged by
uppercasing) followed by the lowercase suit character. -/
theorem claim_C2 :
    ∀ (r : Rank) (s : Suit),
      card_from_str ((Card.new r s).to_string) = .ok (Card.new r s) ∧
      (Card.new r s).to_string = [r.to_char, s.to_char] ∧
      r.to_char.toUpper = r.to_char ∧
      s.to_char.toLower = s.to_char ∧ s.to_char.isLower = true := by
  intro r s
  cases r <;> cases s <;> exact ⟨by decide, by decide, by decide, by decide, by decide⟩

theorem lookup_insertCombo_self (l : List (ℕ × ℚ)) (id : ℕ) (f : ℚ) :
    (insertCombo l id f).lookup id = some f := by
  induction l with
  | nil => simp [insertCombo, List.lookup]
  | cons kv rest ih =>
    obtain ⟨k, v⟩ := kv
    by_cases h1 : id < k
    · simp [insertCombo, h1, List.lookup]
    · by_cases h2 : id = k
      · simp [insertCombo, h1, h2, List.lookup]
      · simp [insertCombo, h1, h2, List.lookup, ih, beq_eq_false_iff_ne.mpr h2]

theorem lookup_insertCombo_other (l : List (ℕ × ℚ)) (id id' : ℕ) (f : ℚ) (h : id' ≠ id) :
    (insertCombo l id f).lookup id' = l.lookup id' := by
  induction l with
  | nil => simp [insertCombo, List.lookup, beq_eq_false_iff_ne.mpr h]
  | cons kv rest ih =>
    obtain ⟨k, v⟩ := kv
    by_cases h1 : id < k
    · simp [insertCombo, h1, List.lookup, beq_eq_false_iff_ne.mpr h]
    · by_cases h2 : id = k
      · subst h2
        simp [insertCombo, h1, List.lookup, beq_eq_false_iff_ne.mpr h]
      · simp [insertCombo, h1, h2, List.lookup, ih]

theorem parse_single_hand_ne_nil {s : List Char} {ac : List Combo} {ids : List ℕ}
    (h : parse_single_hand s ac = .ok ids) : ids ≠ [] := by
  simp only [parse_single_hand] at h
  repeat' split at h
  any_goals exact Except.noConfusion h
  injection h with h'
  subst h'
  intro hnil
  simp_all

theorem parse_single_hand_sub {s : List Char} {ac : List Combo} {ids : List ℕ}
    (h : parse_single_hand s ac = .ok ids) : ∀ id ∈ ids, ∃ c ∈ ac, c.id = id := by
  simp only [parse_single_hand] at h
  repeat' split at h
  any_goals exact Except.noConfusion h
  injection h with h'
  subst h'
  intro id hid
  obtain ⟨c, hc, rfl⟩ := List.mem_map.mp hid
  exact ⟨c, List.mem_of_mem_filter hc, rfl⟩

theorem mapE_ok_mem {α β : Type} {f : α → Except String β} :
    ∀ {l : List α} {bs : List β}, mapE f l = .ok bs → ∀ b ∈ bs, ∃ a ∈ l, f a = .ok b := by
  intro l
  induction l with
  | nil =>
    intro bs h b hb
    simp only [mapE] at h
    injection h with h'
    subst h'
    cases hb
  | cons a rest ih =>
    intro bs h b hb
    simp only [mapE] at h
    split at h
    next => exact Except.noConfusion h
    next b0 heq =>
      split at h
      next => exact Except.noConfusion h
      next bs0 heq2 =>
        injection h with h'
        subst h'
        rcases List.mem_cons.mp hb with rfl | hmem
        · exact ⟨a, List.mem_cons_self a rest, heq⟩
        · obtain ⟨a', ha', hfa⟩ := ih heq2 b hmem
          exact ⟨a', List.mem_cons_of_mem a ha', hfa⟩

theorem collectHands_sub {hands : List (List Char)} {ac : List Combo} {ids : List ℕ}
    (h : collectHands hands ac = .ok ids) : ∀ id ∈ ids, ∃ c ∈ ac, c.id = id := by
  simp only [collectHands] at h
  split at h
  next => exact Except.noConfusion h
  next idss heq =>
    injection h with h'
    subst h'
    intro id hid
    obtain ⟨sub, hsub, hidsub⟩ := List.mem_flatten.mp hid
    obtain ⟨hand, hhand, hph⟩ := mapE_ok_mem heq sub hsub
    exact parse_single_hand_sub hph id hidsub

theorem parse_plus_ids {s : List Char} {ids : List ℕ}
    (h : parse_plus_notation s = .ok ids) :
    ∀ id ∈ ids, ∃ c ∈ generate_all_combos, c.id = id := by
  simp only [ parse_plus_notation] at h
  repeat' split at h
  any_goals exact Except.noConfusion h
  all_goals exact collectHands_sub h

theorem parse_range_ids {s : List Char} {ids : List ℕ}
    (h : parse_range_notation s = .ok ids) :
    ∀ id ∈ ids, ∃ c ∈ generate_all_combos, c.id = id := by
  simp only [ parse_range_notation] at h
  repeat' split at h
  any_goals exact Except.noConfusion h
  all_goals exact collectHands_sub h

theorem parse_hand_pattern_ids {s : List Char} {ids : List ℕ}
    (h : parse_hand_pattern s = .ok ids) :
    ∀ id ∈ ids, ∃ c ∈ generate_all_combos, c.id = id := by
  simp only [parse_hand_pattern] at h
  split at h
  next => exact parse_plus_ids h
  next =>
    split at h
    next => exact parse_range_ids h
    next => exact parse_single_hand_sub h

theorem mem_insertCombo {l : List (ℕ × ℚ)} {id : ℕ} {f : ℚ} {p : ℕ × ℚ}
    (hp : p ∈ insertCombo l id f) : p = (id, f) ∨ p ∈ l := by
  induction l with
  | nil => simpa [insertCombo] using hp
  | cons kv rest ih =>
    obtain ⟨k, v⟩ := kv
    by_cases h1 : id < k
    · simp only [insertCombo, if_pos h1] at hp
      rcases List.mem_cons.mp hp with rfl | hp2
      · exact Or.inl rfl
      · exact Or.inr hp2
    · by_cases h2 : id = k
      · simp only [insertCombo, if_neg h1, if_pos h2] at hp
        rcases List.mem_cons.mp hp with rfl | hp2
        · exact Or.inl rfl
        · exact Or.inr (List.mem_cons_of_mem _ hp2)
      · simp only [insertCombo, if_neg h1, if_neg h2] at hp
        rcases List.mem_cons.mp hp with rfl | hp2
        · exact Or.inr (List.mem_cons_self _ _)
        · rcases ih hp2 with h | h
          · exact Or.inl h
          · exact Or.inr (List.mem_cons_of_mem _ h)

theorem foldl_insert_bound {P : ℕ → Prop} :
    ∀ (ids : List ℕ) (r : Range) (f : ℚ),
      (∀ p ∈ r.combos, P p.1) → (∀ id ∈ ids, P id) →
      ∀ p ∈ (ids.foldl (fun r id => r.insert id f) r).combos, P p.1 := by
  intro ids
  induction ids with
  | nil => exact fun r f hr _ p hp => hr p hp
  | cons id rest ih =>
    intro r f hr hids p hp
    refine ih (r.insert id f) f ?_ (fun i hi => hids i (List.mem_cons_of_mem _ hi)) p hp
    intro q hq
    rcases mem_insertCombo hq with rfl | hq2
    · exact hids id (List.mem_cons_self _ _)
    · exact hr q hq2

theorem parseTokens_bound :
    ∀ {tokens : List (List Char)} {range r : Range},
      (∀ p ∈ range.combos, ∃ c ∈ generate_all_combos, c.id = p.1) →
      parseTokens tokens range = .ok r →
      ∀ p ∈ r.combos, ∃ c ∈ generate_all_combos, c.id = p.1 := by
  intro tokens
  induction tokens with
  | nil =>
    intro range r hr h
    simp only [parseTokens] at h
    injection h with h'
    subst h'
    exact hr
  | cons token rest ih =>
    intro range r hr h
    simp only [parseTokens] at h
    split at h
    · exact ih hr h
    · split at h
      next => exact Except.noConfusion h
      next hand freq heq =>
        split at h
        next => exact Except.noConfusion h
        next ids heq2 =>
          exact ih (foldl_insert_bound ids range freq hr (parse_hand_pattern_ids heq2)) h

theorem range_parse_bound {s : List Char} {r : Range} (h : Range.parse s = .ok r) :
    ∀ p ∈ r.combos, ∃ c ∈ generate_all_combos, c.id = p.1 := by
  simp only [Range.parse] at h
  split at h
  · injection h with h'
    subst h'
    intro p hp
    exact absurd hp (List.not_mem_nil p)
  · exact parseTokens_bound (fun p hp => absurd hp (List.not_mem_nil p)) h

theorem filterBlockedList_some {board : List Card} :
    ∀ {l : List (ℕ × ℚ)}, (∀ p ∈ l, p.1 < generate_all_combos.length) →
      ∃ l', filterBlockedList board l = some l' ∧ ∀ p ∈ l', p ∈ l := by
  intro l
  induction l with
  | nil => exact fun _ => ⟨[], rfl, fun p hp => absurd hp (List.not_mem_nil p)⟩
  | cons q rest ih =>
    intro hb
    obtain ⟨k, v⟩ := q
    have hk : k < generate_all_combos.length := hb (k, v) (List.mem_cons_self _ _)
    obtain ⟨l', hl', hsub⟩ := ih (fun p hp => hb p (List.mem_cons_of_mem _ hp))
    refine ⟨if (generate_all_combos.get ⟨k, hk⟩).is_blocked_by board then l'
            else (k, v) :: l', ?_, ?_⟩
    · simp only [filterBlockedList, List.get?_eq_get hk, hl']
    · intro p hp
      by_cases hbk : (generate_all_combos.get ⟨k, hk⟩).is_blocked_by board = true
      · rw [if_pos hbk] at hp
        exact List.mem_cons_of_mem _ (hsub p hp)
      · rw [if_neg hbk] at hp
        rcases List.mem_cons.mp hp with rfl | hp2
        · exact List.mem_cons_self _ _
        · exact List.mem_cons_of_mem _ (hsub p hp2)

/-- Claim C3 counterexample: the well-formed plus-notation token "2As+"
matches zero combinations, yet `Range::parse` succeeds with an empty
range instead of returning a parse error. -/
theorem claim_C3_counterexample :
    Range.parse ("2As+".toList) = .ok Range.new ∧ Range.new.combos = [] :=
  ⟨by decide, rfl⟩

/-- Claim C3 (amended): a single-hand token that matches zero combinations
is a parse error (`parse_single_hand` never succeeds with an empty id
list), but a plus-notation token whose sweep is empty — the second rank
above the first, as in "2As+" — succeeds and silently contributes zero
combinations. -/
theorem claim_C3 :
    (∀ (s : List Char) (ac : List Combo) (ids : List ℕ),
        parse_single_hand s ac = .ok ids → ids ≠ []) ∧
    parse_plus_notation ("2As".toList) = .ok [] ∧
    Range.parse ("2As+".toList) = .ok Range.new :=
  ⟨fun _ _ _ h => parse_single_hand_ne_nil h, by decide, by decide⟩

/-- Witness for claim C3 at a concrete input: the single hand "AA" resolves
to the six ace-pair ids, a non-empty list. -/
theorem claim_C3_witness : ([0, 1, 2, 51, 52, 101] : List ℕ) ≠ [] :=
  claim_C3.1 ("AA".toList) generate_all_combos [0, 1, 2, 51, 52, 101] (by decide)

/-- Claim C4: inserting a combo id overwrites any previous frequency for
that id and leaves other ids untouched (never summing or merging), so the
later token wins on collision; concretely, "AA:0.3,AA:0.7" parses to the
same range as "AA:0.7", every ace pair at frequency 0.7. -/
theorem claim_C4 :
    (∀ (r : Range) (id : ℕ) (f : ℚ), (r.insert id f).get_frequency id = f) ∧
    (∀ (r : Range) (id id' : ℕ) (f : ℚ), id' ≠ id →
        (r.insert id f).get_frequency id' = r.get_frequency id') ∧
    Range.parse ("AA:0.3,AA:0.7".toList) = Range.parse ("AA:0.7".toList) ∧
    Range.parse ("AA:0.3,AA:0.7".toList) =
      .ok ⟨[(0, mkRat 7 10), (1, mkRat 7 10), (2, mkRat 7 10),
            (51, mkRat 7 10), (52, mkRat 7 10), (101, mkRat 7 10)]⟩ := by
  refine ⟨?_, ?_, by decide, by decide⟩
  · intro r id f
    simp [Range.insert, Range.get_frequency, lookup_insertCombo_self]
  · intro r id id' f h
    simp [Range.insert, Range.get_frequency, lookup_insertCombo_other r.combos id id' f h]

/-- Witness for claim C4 at concrete inputs: overwriting id 3 then
inserting id 5 keeps id 3's last value. -/
theorem claim_C4_witness :
    (Range.new.insert 5 1).get_frequency 5 = 1 ∧
    ((Range.new.insert 3 (mkRat 1 2)).insert 5 1).get_frequency 3 = mkRat 1 2 :=
  ⟨claim_C4.1 Range.new 5 1,
    (claim_C4.2.1 (Range.new.insert 3 (mkRat 1 2)) 5 3 1 (by decide)).trans (by decide)⟩

/-- Claim C5: "AK" and "KA" parse to equal ranges of exactly 16
combinations, 4 suited and 12 offsuit, each at frequency 1.0; "AKs" has
exactly 4 entries and "AKo" exactly 12. -/
theorem claim_C5 :
    Range.parse ("AK".toList) = Range.parse ("KA".toList) ∧
    (Range.parse ("AK".toList)).map Range.len = .ok 16 ∧
    (Range.parse ("AK".toList)).map
      (fun r => r.combos.all (fun p => decide (p.2 = 1))) = .ok true ∧
    (Range.parse ("AK".toList)).map
      (fun r => r.combos.countP (fun p =>
        decide ((generate_all_combos.getD p.1 (Combo.new defaultCard defaultCard 0)).card1.suit =
          (generate_all_combos.getD p.1 (Combo.new defaultCard defaultCard 0)).card2.suit))) =
      .ok 4 ∧
    (Range.parse ("AK".toList)).map
      (fun r => r.combos.countP (fun p =>
        decide (¬(generate_all_combos.getD p.1 (Combo.new defaultCard defaultCard 0)).card1.suit =
          (generate_all_combos.getD p.1 (Combo.new defaultCard defaultCard 0)).card2.suit))) =
      .ok 12 ∧
    (Range.parse ("AKs".toList)).map Range.len = .ok 4 ∧
    (Range.parse ("AKo".toList)).map Range.len = .ok 12 :=
  ⟨by decide, by decide, by decide, by decide, by decide, by decide, by decide⟩

/-- Claim C10: every combo id stored by a successful `Range::parse` is the
id of some generated combination, hence strictly below 1326; consequently
`filter_blocked` never reaches its out-of-bounds (panic) branch on such a
range, and its output again stores only such ids. -/
theorem claim_C10 :
    ∀ (s : List Char) (r : Range), Range.parse s = .ok r →
      (∀ p ∈ r.combos, (∃ c ∈ generate_all_combos, c.id = p.1) ∧ p.1 < 1326) ∧
      ∀ board : List Card, ∃ r' : Range, r.filter_blocked board = some r' ∧
        ∀ p ∈ r'.combos, (∃ c ∈ generate_all_combos, c.id = p.1) ∧ p.1 < 1326 := by
  intro s r h
  have hb := range_parse_bound h
  have hlt : ∀ p ∈ r.combos, p.1 < 1326 := by
    intro p hp
    obtain ⟨c, hc, hcid⟩ := hb p hp
    exact hcid ▸ combo_id_lt hc
  refine ⟨fun p hp => ⟨hb p hp, hlt p hp⟩, ?_⟩
  intro board
  obtain ⟨l', hl', hsub⟩ :=
    @filterBlockedList_some board r.combos
      (fun p hp => by rw [combos_length]; exact hlt p hp)
  refine ⟨⟨l'⟩, ?_, ?_⟩
  · simp [Range.filter_blocked, hl']
  · exact fun p hp => ⟨hb p (hsub p hp), hlt p (hsub p hp)⟩

/-- Witness for claim C10 at a concrete input: the parsed "AA" range. -/
theorem claim_C10_witness :
    (∀ p ∈ (⟨[(0, 1), (1, 1), (2, 1), (51, 1), (52, 1), (101, 1)]⟩ : Range).combos,
        (∃ c ∈ generate_all_combos, c.id = p.1) ∧ p.1 < 1326) ∧
    ∀ board : List Card, ∃ r' : Range,
      Range.filter_blocked ⟨[(0, 1), (1, 1), (2, 1), (51, 1), (52, 1), (101, 1)]⟩ board =
        some r' ∧
      ∀ p ∈ r'.combos, (∃ c ∈ generate_all_combos, c.id = p.1) ∧ p.1 < 1326 :=
  claim_C10 ("AA".toList) ⟨[(0, 1), (1, 1), (2, 1), (51, 1), (52, 1), (101, 1)]⟩ (by decide)

/-- Claim C8: `get_bet_amounts` maps each selected rule in rule order
through `calculate` (round(pot × pct / 100) capped at stack for
percentages, the stack for all-in) and keeps exactly the amounts that are
strictly positive and at most the stack, without deduplication; the
default config at pot 20, stack 100 (out of position) yields [7, 13, 100]. -/
theorem claim_C8 :
    (∀ (c : BetSizeConfig) (oop : Bool) (pot stack : ℕ),
        c.get_bet_amounts oop pot stack =
          ((if oop then c.oop_bet else c.ip_bet).map
              (fun sz => sz.calculate pot stack)).filter
            (fun a => decide (0 < a ∧ a ≤ stack))) ∧
    (∀ (pct : ℚ) (pot stack : ℕ),
        (BetSize.Percent pct).calculate pot stack =
          min (castU32 (roundHalfAway (potPct pot pct))) stack) ∧
    (∀ (pot stack : ℕ), BetSize.AllIn.calculate pot stack = stack) ∧
    BetSizeConfig.default.get_bet_amounts true 20 100 = [7, 13, 100] :=
  ⟨fun _ _ _ _ => rfl, fun _ _ _ => rfl, fun _ _ => rfl, by decide⟩

/-- Claim C9: `get_raise_amounts` computes `to_call + round((pot + to_call)
× pct / 100)` per percentage rule and the stack for all-in, keeping in rule
order exactly the amounts strictly above `to_call` and at most the stack
(so every output lies in that interval); the default config at pot 20,
to_call 10, stack 100 yields [25, 100], which contains 100 and is
non-empty. -/
theorem claim_C9 :
    (∀ (c : BetSizeConfig) (oop : Bool) (pot to_call stack : ℕ),
        c.get_raise_amounts oop pot to_call stack =
          ((if oop then c.oop_raise else c.ip_raise).map
              (fun sz =>
                match sz with
                | .Percent pct => to_call + castU32 (roundHalfAway (potPct (pot + to_call) pct))
                | .AllIn => stack)).filter
            (fun a => decide (to_call < a ∧ a ≤ stack))) ∧
    (∀ (c : BetSizeConfig) (oop : Bool) (pot to_call stack a : ℕ),
        a ∈ c.get_raise_amounts oop pot to_call stack → to_call < a ∧ a ≤ stack) ∧
    BetSizeConfig.default.get_raise_amounts true 20 10 100 = [25, 100] ∧
    100 ∈ BetSizeConfig.default.get_raise_amounts true 20 10 100 ∧
    BetSizeConfig.default.get_raise_amounts true 20 10 100 ≠ [] := by
  refine ⟨fun _ _ _ _ _ => rfl, ?_, by decide, by decide, by decide⟩
  intro c oop pot to_call stack a ha
  have := (List.mem_filter.mp ha).2
  exact of_decide_eq_true this

/-- Witness for claim C9 at a concrete input: 100 is an output of the
default config's raise amounts, so it is above the call and within stack. -/
theorem claim_C9_witness : 10 < 100 ∧ 100 ≤ 100 :=
  claim_C9.2.1 BetSizeConfig.default true 20 10 100 100 (by decide)

theorem mapE_ok_forall₂ {α β : Type} {f : α → Except String β} :
    ∀ {l : List α} {bs : List β}, mapE f l = .ok bs →
      List.Forall₂ (fun a b => f a = .ok b) l bs := by
  intro l
  induction l with
  | nil =>
    intro bs h
    simp only [mapE] at h
    injection h with h'
    subst h'
    exact .nil
  | cons a rest ih =>
    intro bs h
    simp only [mapE] at h
    split at h
    next => exact Except.noConfusion h
    next b0 heq =>
      split at h
      next => exact Except.noConfusion h
      next bs0 heq2 =>
        injection h with h'
        subst h'
        exact .cons heq (ih heq2)

theorem mapE_of_forall₂ {α β : Type} {f : α → Except String β} :
    ∀ {l : List α} {bs : List β},
      List.Forall₂ (fun a b => f a = .ok b) l bs → mapE f l = .ok bs := by
  intro l bs h
  induction h with
  | nil => rfl
  | cons hR hrest ih => simp only [mapE, hR, ih]

theorem mapE_ok_of_all {α β : Type} {f : α → Except String β} :
    ∀ {l : List α}, (∀ a ∈ l, ∃ b, f a = .ok b) → ∃ bs, mapE f l = .ok bs := by
  intro l
  induction l with
  | nil => exact fun _ => ⟨[], rfl⟩
  | cons a rest ih =>
    intro hall
    obtain ⟨b, hb⟩ := hall a (List.mem_cons_self _ _)
    obtain ⟨bs, hbs⟩ := ih (fun x hx => hall x (List.mem_cons_of_mem _ hx))
    exact ⟨b :: bs, by simp only [mapE, hb, hbs]⟩

theorem mapE_error_of_mem {α β : Type} {f : α → Except String β} :
    ∀ {l : List α}, (∃ a ∈ l, ∃ e, f a = .error e) → ∃ e', mapE f l = .error e' := by
  intro l
  induction l with
  | nil =>
    intro ⟨a, ha, _⟩
    exact absurd ha (List.not_mem_nil a)
  | cons a rest ih =>
    intro ⟨x, hx, e, he⟩
    match hfa : f a with
    | .error e0 => exact ⟨e0, by simp only [mapE, hfa]⟩
    | .ok b =>
      rcases List.mem_cons.mp hx with rfl | hx2
      · rw [he] at hfa
        exact Except.noConfusion hfa
      · obtain ⟨e', he'⟩ := ih ⟨x, hx2, e, he⟩
        exact ⟨e', by simp only [mapE, hfa, he']⟩

theorem forall₂_mem_left {α β : Type} {R : α → β → Prop} :
    ∀ {l : List α} {bs : List β}, List.Forall₂ R l bs → ∀ a ∈ l, ∃ b, R a b := by
  intro l bs h
  induction h with
  | nil =>
    intro a ha
    exact absurd ha (List.not_mem_nil a)
  | cons hR hrest ih =>
    intro a ha
    rcases List.mem_cons.mp ha with rfl | ha2
    · exact ⟨_, hR⟩
    · exact ih a ha2

theorem char_ws_cases {ch : Char} (h : ch.isWhitespace = true) :
    ch = ' ' ∨ ch = '\t' ∨ ch = '\r' ∨ ch = '\n' := by
  have h' := h
  simp [Char.isWhitespace] at h'
  tauto

theorem rank_from_char_not_ws {ch : Char} {r : Rank} (h : Rank.from_char ch = some r) :
    ch.isWhitespace = false := by
  by_contra hws
  have hws' : ch.isWhitespace = true := by
    revert hws
    cases hx : ch.isWhitespace <;> simp
  rcases char_ws_cases hws' with rfl | rfl | rfl | rfl <;> simp [Rank.from_char] at h

theorem suit_from_char_not_ws {ch : Char} {s : Suit} (h : Suit.from_char ch = some s) :
    ch.isWhitespace = false := by
  by_contra hws
  have hws' : ch.isWhitespace = true := by
    revert hws
    cases hx : ch.isWhitespace <;> simp
  rcases char_ws_cases hws' with rfl | rfl | rfl | rfl <;> simp [Suit.from_char] at h

theorem card_from_str_chars {t : List Char} {c : Card} (h : card_from_str t = .ok c) :
    t.length = 2 ∧ ∀ ch ∈ t, ch.isWhitespace = false := by
  match t with
  | [] => exact Except.noConfusion h
  | [a] => exact Except.noConfusion h
  | a :: b :: d :: rest => exact Except.noConfusion h
  | [a, b] =>
    simp only [card_from_str] at h
    split at h
    next => exact Except.noConfusion h
    next r hr =>
      split at h
      next => exact Except.noConfusion h
      next su hs =>
        refine ⟨rfl, ?_⟩
        intro ch hch
        rcases List.mem_cons.mp hch with rfl | hch2
        · exact rank_from_char_not_ws hr
        · rcases List.mem_cons.mp hch2 with rfl | hch3
          · exact suit_from_char_not_ws hs
          · exact absurd hch3 (List.not_mem_nil ch)

theorem dropWhile_eq_self_of_all {p : Char → Bool} {l : List Char}
    (h : ∀ ch ∈ l, p ch = false) : l.dropWhile p = l := by
  cases l with
  | nil => rfl
  | cons a rest => simp [List.dropWhile_cons, h a (List.mem_cons_self _ _)]

theorem trim_of_no_ws {l : List Char} (h : ∀ ch ∈ l, ch.isWhitespace = false) :
    trim l = l := by
  unfold trim
  rw [dropWhile_eq_self_of_all h,
    dropWhile_eq_self_of_all (fun ch hch => h ch (List.mem_reverse.mp hch)),
    List.reverse_reverse]

theorem chunks2_flatten :
    ∀ {ts : List (List Char)}, (∀ t ∈ ts, t.length = 2) → chunks2 ts.flatten = ts := by
  intro ts
  induction ts with
  | nil => exact fun _ => rfl
  | cons t rest ih =>
    intro h
    have ht := h t (List.mem_cons_self _ _)
    match t, ht with
    | [a, b], _ =>
      show chunks2 (a :: b :: rest.flatten) = [a, b] :: rest
      simp only [chunks2]
      rw [ih (fun x hx => h x (List.mem_cons_of_mem _ hx))]

theorem flatten_length_even :
    ∀ {ts : List (List Char)}, (∀ t ∈ ts, t.length = 2) → ts.flatten.length % 2 = 0 := by
  intro ts
  induction ts with
  | nil => exact fun _ => rfl
  | cons t rest ih =>
    intro h
    have ht := h t (List.mem_cons_self _ _)
    have := ih (fun x hx => h x (List.mem_cons_of_mem _ hx))
    simp only [List.flatten_cons, List.length_append, ht]
    omega

/-- Claim C6 counterexample: "Ah" and "Kd" are valid card tokens separated
by whitespace (a tab), yet `parse_board` fails: the whitespace branch is
taken only when a space character is present, and the odd-length
concatenated fallback rejects the string. -/
theorem claim_C6_counterexample :
    parse_board ("Ah\tKd".toList) = .error "Invalid board string length" := by decide

/-- Claim C6 (amended): whenever the trimmed input contains a space
character the whitespace-separated interpretation is used, and it
succeeds with the cards in input order when every token is a valid card;
every concatenation of valid 2-character card tokens parses to those
cards in order; when no space is present, an odd-length trimmed input is
an error, and so is an even-length one with an invalid 2-character
chunk.  (Valid tokens separated only by non-space whitespace, such as a
tab, fall to the concatenated branch instead and are not accepted.) -/
theorem claim_C6 :
    (∀ s : List Char, ' ' ∈ trim s →
        parse_board s = mapE card_from_str (splitWhitespace (trim s))) ∧
    (∀ (s : List Char) (cs : List Card), ' ' ∈ trim s →
        List.Forall₂ (fun t c => card_from_str t = .ok c) (splitWhitespace (trim s)) cs →
        parse_board s = .ok cs) ∧
    (∀ (ts : List (List Char)) (cs : List Card),
        List.Forall₂ (fun t c => card_from_str t = .ok c) ts cs →
        parse_board ts.flatten = .ok cs) ∧
    (∀ s : List Char, ' ' ∉ trim s → (trim s).length % 2 = 1 →
        parse_board s = .error "Invalid board string length") ∧
    (∀ s : List Char, ' ' ∉ trim s → (trim s).length % 2 = 0 →
        (∃ t ∈ chunks2 (trim s), (card_from_str t).isOk = false) →
        ∃ e, parse_board s = .error e) := by
  have hbranch : ∀ s : List Char, ' ' ∈ trim s →
      parse_board s = mapE card_from_str (splitWhitespace (trim s)) := by
    intro s hs
    simp only [parse_board]
    rw [if_pos hs]
  refine ⟨hbranch, ?_, ?_, ?_, ?_⟩
  · intro s cs hs hf
    rw [hbranch s hs]
    exact mapE_of_forall₂ hf
  · intro ts cs hf
    have hchars : ∀ t ∈ ts, t.length = 2 ∧ ∀ ch ∈ t, ch.isWhitespace = false := by
      intro t ht
      obtain ⟨c, hc⟩ := forall₂_mem_left hf t ht
      exact card_from_str_chars hc
    have hnows : ∀ ch ∈ ts.flatten, ch.isWhitespace = false := by
      intro ch hch
      obtain ⟨t, ht, hcht⟩ := List.mem_flatten.mp hch
      exact (hchars t ht).2 ch hcht
    have htrim : trim ts.flatten = ts.flatten := trim_of_no_ws hnows
    have hnospace : ' ' ∉ trim ts.flatten := by
      rw [htrim]
      intro hsp
      exact absurd (hnows ' ' hsp) (by decide)
    have heven : (trim ts.flatten).length % 2 = 0 := by
      rw [htrim]
      exact flatten_length_even (fun t ht => (hchars t ht).1)
    simp only [parse_board]
    rw [if_neg hnospace, if_neg (by omega : ¬(trim ts.flatten).length % 2 ≠ 0), htrim,
      chunks2_flatten (fun t ht => (hchars t ht).1)]
    exact mapE_of_forall₂ hf
  · intro s hns hodd
    simp only [parse_board]
    rw [if_neg hns, if_pos (by omega : (trim s).length % 2 ≠ 0)]
  · intro s hns heven hbad
    obtain ⟨t, ht, hkt⟩ := hbad
    have hfail : ∃ e, card_from_str t = .error e := by
      match hft : card_from_str t with
      | .error e => exact ⟨e, rfl⟩
      | .ok c =>
        rw [hft] at hkt
        exact absurd hkt (by simp [Except.isOk, Except.toBool])
    obtain ⟨e', he'⟩ := mapE_error_of_mem ⟨t, ht, hfail⟩
    refine ⟨e', ?_⟩
    simp only [parse_board]
    rw [if_neg hns, if_neg (by omega : ¬(trim s).length % 2 ≠ 0)]
    exact he'

/-- Witness for claim C6 at concrete inputs: a space-separated board, a
concatenated board, an odd-length concatenated board, and a board with an
invalid chunk. -/
theorem claim_C6_witness :
    parse_board ("Ah Kd".toList) = .ok [Card.new .Ace .Hearts, Card.new .King .Diamonds] ∧
    parse_board ("AhKd".toList) = .ok [Card.new .Ace .Hearts, Card.new .King .Diamonds] ∧
    parse_board ("AhKdQ".toList) = .error "Invalid board string length" ∧
    ∃ e, parse_board ("AhXd".toList) = .error e :=
  ⟨claim_C6.2.1 ("Ah Kd".toList) [Card.new .Ace .Hearts, Card.new .King .Diamonds]
      (by decide) (.cons (by decide) (.cons (by decide) .nil)),
    by
      have h := claim_C6.2.2.1 [['A', 'h'], ['K', 'd']]
        [Card.new .Ace .Hearts, Card.new .King .Diamonds]
        (.cons (by decide) (.cons (by decide) .nil))
      simpa using h,
    claim_C6.2.2.2.1 ("AhKdQ".toList) (by decide) (by decide),
    claim_C6.2.2.2.2 ("AhXd".toList) (by decide) (by decide) ⟨['X', 'd'], by decide, by decide⟩⟩

/-- Claim C7: `parse_bet_size_string` fails with a descriptive error
whenever every comma-separated token trims to empty (in particular on the
empty string and on strings of commas and whitespace), while
`Range::parse` accepts the empty string as an empty range; with at least
one non-empty token it succeeds exactly when every non-empty token parses
as a single bet size, and the outputs follow the tokens in order. -/
theorem claim_C7 :
    (∀ s : List Char, betTokens s = [] →
        parse_bet_size_string s = .error "Bet size string cannot be empty") ∧
    parse_bet_size_string ("".toList) = .error "Bet size string cannot be empty" ∧
    parse_bet_size_string (", ,  ,".toList) = .error "Bet size string cannot be empty" ∧
    Range.parse ("".toList) = .ok Range.new ∧
    (∀ s : List Char, betTokens s ≠ [] →
        ((∃ bs, parse_bet_size_string s = .ok bs) ↔
          ∀ t ∈ betTokens s, ∃ b, parse_single_bet_size t = .ok b)) ∧
    (∀ (s : List Char) (bs : List BetSize), parse_bet_size_string s = .ok bs →
        List.Forall₂ (fun t b => parse_single_bet_size t = .ok b) (betTokens s) bs) := by
  have hok : ∀ (s : List Char) (bs : List BetSize), parse_bet_size_string s = .ok bs →
      List.Forall₂ (fun t b => parse_single_bet_size t = .ok b) (betTokens s) bs := by
    intro s bs h
    simp only [parse_bet_size_string] at h
    split at h
    next => exact Except.noConfusion h
    next sizes heq =>
      split at h
      next => exact Except.noConfusion h
      next =>
        injection h with h'
        subst h'
        exact mapE_ok_forall₂ heq
  refine ⟨?_, by decide, by decide, by decide, ?_, hok⟩
  · intro s h
    simp only [parse_bet_size_string, h, mapE]
    rfl
  · intro s hne
    constructor
    · intro ⟨bs, hbs⟩
      exact forall₂_mem_left (hok s bs hbs)
    · intro hall
      obtain ⟨bs, hbs⟩ := mapE_ok_of_all hall
      refine ⟨bs, ?_⟩
      simp only [parse_bet_size_string, hbs]
      have hlen : bs.length = (betTokens s).length :=
        (List.Forall₂.length_eq (mapE_ok_forall₂ hbs)).symm
      have hbsne : ¬bs.isEmpty = true := by
        cases hbb : bs with
        | nil =>
          subst hbb
          exact absurd (by simpa using hlen.symm) hne
        | cons x xs => simp
      rw [if_neg hbsne]

/-- Witness for claim C7 at concrete inputs: a lone comma fails, and "33"
parses to the single percentage rule. -/
theorem claim_C7_witness :
    parse_bet_size_string (",".toList) = .error "Bet size string cannot be empty" ∧
    ((∃ bs, parse_bet_size_string ("33".toList) = .ok bs) ↔
      ∀ t ∈ betTokens ("33".toList), ∃ b, parse_single_bet_size t = .ok b) ∧
    List.Forall₂ (fun t b => parse_single_bet_size t = .ok b)
      (betTokens ("33".toList)) [.Percent 33] :=
  ⟨claim_C7.1 (",".toList) (by decide),
    claim_C7.2.2.2.2.1 ("33".toList) (by decide),
    claim_C7.2.2.2.2.2 ("33".toList) [.Percent 33] (by decide)⟩
